import Mathlib

/-!
Verification of the markdown-to-HTML converter (`markdown_converter` package:
`lexer.py`, `parser.py`, `inline_parser.py`, `renderer.py`, `converter.py`).

Text is modelled as `List Char`.  Each Python regular expression used by the
source is translated into an explicit matching function on `List Char`, with
anchored-`match` semantics and the greedy/lazy quantifier behaviour spelled
out.  Character classes `\s`, `\w`, `\d` and the `str.strip` / `str.splitlines`
methods are modelled over their ASCII behaviour.
-/

set_option maxHeartbeats 1000000

/-- A single input line (string without line terminators). -/
abbrev Line := List Char

/-- Python whitespace test (`\s`, `str.strip`), ASCII range. -/
def pySpace (c : Char) : Bool :=
  c = ' ' || c = '\t' || c = '\n' || c = '\r' || c = Char.ofNat 11 || c = Char.ofNat 12

/-- Python word character (`\w`), ASCII range. -/
def pyWord (c : Char) : Bool :=
  c.isAlpha || c.isDigit || c = '_'

/-- Line terminators recognised by `str.splitlines` (BMP set; `\r\n` is
handled as a single break by `tokenize`). -/
def isLineBreak (c : Char) : Bool :=
  c = '\n' || c = '\r' || c = Char.ofNat 11 || c = Char.ofNat 12 ||
  c = Char.ofNat 28 || c = Char.ofNat 29 || c = Char.ofNat 30 ||
  c = Char.ofNat 133 || c = Char.ofNat 8232 || c = Char.ofNat 8233

/-- The backtick character. -/
def btick : Char := Char.ofNat 96

/-- Strip trailing characters satisfying `pySpace`. -/
def stripRight (l : List Char) : List Char :=
  (l.reverse.dropWhile pySpace).reverse

/-- Python `str.strip()`: remove leading and trailing whitespace. -/
def pyStrip (l : List Char) : List Char :=
  stripRight (l.dropWhile pySpace)

/-- Decimal digits to a natural number (`int(...)` on a digit run). -/
def digitsToNat (ds : List Char) : Nat :=
  ds.foldl (fun n c => 10 * n + (c.toNat - 48)) 0

/-- Matcher for `_RE_HR = r'^\s*(\*\*\*|---|___)\s*$'` applied with `re.match`:
leading whitespace, one of the three exact three-character sequences,
trailing whitespace, end of line. -/
def matchHR (l : Line) : Bool :=
  let r := l.dropWhile pySpace
  (List.isPrefixOf ['*', '*', '*'] r && (r.drop 3).all pySpace) ||
  (List.isPrefixOf ['-', '-', '-'] r && (r.drop 3).all pySpace) ||
  (List.isPrefixOf ['_', '_', '_'] r && (r.drop 3).all pySpace)

/-- Matcher for `_RE_HEADING = r'^(#{1,6})\s*(.*)$'` applied with `re.match`:
returns `(len(group(1)), group(2))` when the line starts with at least one
`#`.  The greedy `#{1,6}` takes `min(run, 6)` characters of the leading `#`
run, `\s*` then consumes the following whitespace, `(.*)` the rest. -/
def matchHeading (l : Line) : Option (Nat × Line) :=
  let run := l.takeWhile (fun c => c = '#')
  if run.isEmpty then none
  else
    let k := min run.length 6
    some (k, (l.drop k).dropWhile pySpace)

/-- Matcher for `_RE_FENCE_START = r'^```(\w+)?\s*$'` applied with `re.match`:
three backticks, an optional word-character run (the language), then only
whitespace to end of line.  Returns the language group (empty when absent,
matching `m.group(1) or ''`). -/
def matchFenceStart (l : Line) : Option Line :=
  if List.isPrefixOf [btick, btick, btick] l then
    let rest := l.drop 3
    let w := rest.takeWhile pyWord
    if (rest.drop w.length).all pySpace then some w else none
  else none

/-- Matcher for `_RE_FENCE_END = r'^```\s*$'` applied with `re.match`. -/
def matchFenceEnd (l : Line) : Bool :=
  List.isPrefixOf [btick, btick, btick] l && (l.drop 3).all pySpace

/-- Matcher for `_RE_BLOCKQUOTE = r'^\s*>+\s?(.*)$'` applied with `re.match`: the
pattern succeeds exactly when the first non-whitespace character is `>`
(after it, `\s?` and `(.*)` always succeed). -/
def matchBlockquote (l : Line) : Bool :=
  match l.dropWhile pySpace with
  | c :: _ => c = '>'
  | [] => false

/-- Matcher for `_RE_UNORDERED = r'^(\s*)([-*+])\s+(.*)$'` applied with `re.match`:
returns `(len(group(1)), group(2), group(3))`.  The marker must be followed
by at least one whitespace character; the greedy `\s+` consumes the whole
whitespace run, `(.*)` the rest. -/
def matchUnordered (l : Line) : Option (Nat × Char × Line) :=
  let ws := l.takeWhile pySpace
  match l.dropWhile pySpace with
  | c :: rest =>
    if c = '-' || c = '*' || c = '+' then
      match rest with
      | c2 :: _ => if pySpace c2 then some (ws.length, c, rest.dropWhile pySpace) else none
      | [] => none
    else none
  | [] => none

/-- Matcher for `_RE_ORDERED = r'^(\s*)(\d+)\.\s+(.*)$'` applied with `re.match`:
returns `(len(group(1)), int(group(2)), group(3))`.  The digit run must be
followed by a literal `.` and at least one whitespace character. -/
def matchOrdered (l : Line) : Option (Nat × Nat × Line) :=
  let ws := l.takeWhile pySpace
  match l.dropWhile pySpace with
  | c :: rest =>
    if c.isDigit then
      let ds := (c :: rest).takeWhile Char.isDigit
      match (c :: rest).drop ds.length with
      | '.' :: rest2 =>
        match rest2 with
        | c2 :: _ =>
          if pySpace c2 then some (ws.length, digitsToNat ds, rest2.dropWhile pySpace)
          else none
        | [] => none
      | _ => none
    else none
  | [] => none

/-- Block records produced by `parse` (the Python dicts, as a tagged
variant; every variant except `hr` carries a `content` field). -/
inductive Block where
  | hr : Block
  | heading (level : Nat) (content : Line) : Block
  | code_block (language : Line) (content : Line) : Block
  | blockquote (level : Nat) (content : Line) : Block
  | ul (indent : Nat) (content : Line) : Block
  | ol (indent : Nat) (number : Nat) (content : Line) : Block
  | paragraph (content : Line) : Block
  deriving DecidableEq, Repr

/-- Fenced-code collection loop of `parse` (`parser.py` lines 71-76):
gather lines until one matches `_RE_FENCE_END`; the closing fence is
consumed but not collected; end of input also terminates. -/
def takeCodeLines : List Line → List Line × List Line
  | [] => ([], [])
  | l :: rest =>
    if matchFenceEnd l then ([], rest)
    else
      let p := takeCodeLines rest
      (l :: p.1, p.2)

/-- Blockquote loop of `parse` (`parser.py` lines 89-103): for each
consecutive line matching `_RE_BLOCKQUOTE`, emit one block whose `level`
is `len(line) - len(line.lstrip('>'))` floored to 1 and whose content is
`line.lstrip('>').strip()`. -/
def takeBlockquotes (line : Line) (rest : List Line) : List Block × List Line :=
  let lv0 := line.length - (line.dropWhile (fun c => c = '>')).length
  let content := pyStrip (line.dropWhile (fun c => c = '>'))
  let lv := if lv0 = 0 then 1 else lv0
  let b := Block.blockquote lv content
  match rest with
  | [] => ([b], [])
  | l2 :: rest2 =>
    if matchBlockquote l2 then
      let p := takeBlockquotes l2 rest2
      (b :: p.1, p.2)
    else ([b], l2 :: rest2)

/-- A line that starts one of block rules 1-6 (the paragraph-stop test of
`parser.py` lines 148-151). -/
def lineSpecial (l : Line) : Bool :=
  matchHR l || (matchHeading l).isSome || (matchFenceStart l).isSome ||
  matchBlockquote l || (matchUnordered l).isSome || (matchOrdered l).isSome

/-- Paragraph-aggregation loop of `parse` (`parser.py` lines 143-153):
collect stripped continuation lines until a blank line, a special line, or
end of input; the terminating line is not consumed. -/
def takePara : List Line → List Line × List Line
  | [] => ([], [])
  | l :: rest =>
    if (pyStrip l).isEmpty then ([], l :: rest)
    else if lineSpecial l then ([], l :: rest)
    else
      let p := takePara rest
      (pyStrip l :: p.1, p.2)

/-- One iteration of the `parse` main loop (`parser.py` lines 48-154):
classification in priority order horizontal rule, heading, fenced code,
blockquote, unordered item, ordered item, blank line, paragraph.  Returns
the blocks emitted by the iteration and the remaining lines. -/
def parseStep (line : Line) (rest : List Line) : List Block × List Line :=
  if matchHR line then ([Block.hr], rest)
  else
    match matchHeading line with
    | some (lv, g2) => ([Block.heading lv (pyStrip g2)], rest)
    | none =>
      match matchFenceStart line with
      | some lang =>
        let p := takeCodeLines rest
        ([Block.code_block lang (List.intercalate ['\n'] p.1)], p.2)
      | none =>
        if matchBlockquote line then takeBlockquotes line rest
        else
          match matchUnordered line with
          | some (ind, _, t) => ([Block.ul ind (pyStrip t)], rest)
          | none =>
            match matchOrdered line with
            | some (ind, n, t) => ([Block.ol ind n (pyStrip t)], rest)
            | none =>
              if (pyStrip line).isEmpty then ([], rest)
              else
                let p := takePara rest
                ([Block.paragraph (List.intercalate [' '] (pyStrip line :: p.1))], p.2)

/-- Fuel-driven main loop of `parse`; the fuel only bounds the number of
iterations (each iteration consumes at least one line, so `tokens.length`
iterations always suffice). -/
def parseGo : Nat → List Line → List Block
  | 0, _ => []
  | _ + 1, [] => []
  | fuel + 1, line :: rest =>
    let p := parseStep line rest
    p.1 ++ parseGo fuel p.2

/-- The `parse` function (`parser.py`): lines to block records. -/
def parse (tokens : List Line) : List Block :=
  parseGo tokens.length tokens

/-!  Inline parser (`inline_parser.py`).

Each `_RE_*.sub(template, text)` call is modelled by a scanner that walks
the string left to right; at each position it attempts an anchored match of
the pattern, replaces the matched span with the instantiated template, and
resumes scanning immediately after the matched span (the `re.sub`
contract: non-overlapping matches, the replacement text is not rescanned
by the same pass).  Each `tryX` function returns the replacement text and
the number of characters the match consumed. -/

/-- Anchored match of `_RE_IMAGE = r'!\[([^\]]*?)\]\(([^)]+?)\)'` with the
template `<img src="\2" alt="\1"/>`.  `[^\]]*?` reaches exactly to the
first `]` (possibly empty), `[^)]+?` exactly to the first `)` (nonempty). -/
def tryImage : List Char → Option (List Char × Nat)
  | '!' :: '[' :: rest =>
    let alt := rest.takeWhile (fun c => c ≠ ']')
    match rest.drop alt.length with
    | ']' :: '(' :: rest2 =>
      let src := rest2.takeWhile (fun c => c ≠ ')')
      if src.isEmpty then none
      else
        match rest2.drop src.length with
        | ')' :: _ =>
          some ("<img src=\"".data ++ src ++ "\" alt=\"".data ++ alt ++ "\"/>".data,
            2 + alt.length + 2 + src.length + 1)
        | _ => none
    | _ => none
  | _ => none

/-- Anchored match of `_RE_LINK = r'\[([^\]]+?)\]\(([^)]+?)\)'` with the
template `<a href="\2">\1</a>`. -/
def tryLink : List Char → Option (List Char × Nat)
  | '[' :: rest =>
    let txt := rest.takeWhile (fun c => c ≠ ']')
    if txt.isEmpty then none
    else
      match rest.drop txt.length with
      | ']' :: '(' :: rest2 =>
        let url := rest2.takeWhile (fun c => c ≠ ')')
        if url.isEmpty then none
        else
          match rest2.drop url.length with
          | ')' :: _ =>
            some ("<a href=\"".data ++ url ++ "\">".data ++ txt ++ "</a>".data,
              1 + txt.length + 2 + url.length + 1)
          | _ => none
      | _ => none
  | _ => none

/-- Anchored match of ``_RE_CODE = r'`([^`]+?)`'`` with the template
`<code>\1</code>`. -/
def tryCode : List Char → Option (List Char × Nat)
  | c :: rest =>
    if c = btick then
      let code := rest.takeWhile (fun x => x ≠ btick)
      if code.isEmpty then none
      else
        match rest.drop code.length with
        | c2 :: _ =>
          if c2 = btick then
            some ("<code>".data ++ code ++ "</code>".data, 1 + code.length + 1)
          else none
        | [] => none
    else none
  | [] => none

/-- Lazy scan for `(.+?)\1` after an opening delimiter: the shortest
nonempty newline-free content followed by the backreferenced delimiter.
Returns the content group and the characters consumed (content plus
closing delimiter). -/
def scanClose (delim : List Char) : List Char → Option (List Char × Nat)
  | [] => none
  | c :: cs =>
    if c = '\n' then none
    else if List.isPrefixOf delim cs then some ([c], 1 + delim.length)
    else
      match scanClose delim cs with
      | some (content, n) => some (c :: content, n + 1)
      | none => none

/-- Anchored match of `_RE_BOLD = r'(\*\*|__)(.+?)\1'` with the template
`<strong>\2</strong>`; the alternation tries `**` before `__`. -/
def tryBold (s : List Char) : Option (List Char × Nat) :=
  if List.isPrefixOf ['*', '*'] s then
    match scanClose ['*', '*'] (s.drop 2) with
    | some (content, n) => some ("<strong>".data ++ content ++ "</strong>".data, 2 + n)
    | none => none
  else if List.isPrefixOf ['_', '_'] s then
    match scanClose ['_', '_'] (s.drop 2) with
    | some (content, n) => some ("<strong>".data ++ content ++ "</strong>".data, 2 + n)
    | none => none
  else none

/-- Anchored match of `_RE_ITALIC = r'(\*|_)(.+?)\1'` with the template
`<em>\2</em>`; the alternation tries `*` before `_`. -/
def tryItalic (s : List Char) : Option (List Char × Nat) :=
  if List.isPrefixOf ['*'] s then
    match scanClose ['*'] (s.drop 1) with
    | some (content, n) => some ("<em>".data ++ content ++ "</em>".data, 1 + n)
    | none => none
  else if List.isPrefixOf ['_'] s then
    match scanClose ['_'] (s.drop 1) with
    | some (content, n) => some ("<em>".data ++ content ++ "</em>".data, 1 + n)
    | none => none
  else none

/-- Driver modelling `re.sub`: scan left to right, replacing each anchored match and
resuming after its span.  The fuel only bounds the number of scan steps;
every step consumes at least one character, so `s.length` always
suffices. -/
def substGo (f : List Char → Option (List Char × Nat)) : Nat → List Char → List Char
  | 0, s => s
  | _ + 1, [] => []
  | fuel + 1, c :: cs =>
    match f (c :: cs) with
    | some (r, n) => r ++ substGo f fuel (cs.drop (n - 1))
    | none => c :: substGo f fuel cs

/-- One global `_RE_X.sub` pass over a string. -/
def subst (f : List Char → Option (List Char × Nat)) (s : List Char) : List Char :=
  substGo f s.length s

/-- The `_replace_inline` function (`inline_parser.py` lines 28-39): the five
substitution passes in source order — image, link, code, bold, italic. -/
def replaceInline (text : List Char) : List Char :=
  let t1 := subst tryImage text
  let t2 := subst tryLink t1
  let t3 := subst tryCode t2
  let t4 := subst tryBold t3
  subst tryItalic t4

/-- Per-block action of `process_inline`: rewrite the `content` field when
present (every variant except `hr` has one). -/
def inlineBlock : Block → Block
  | Block.hr => Block.hr
  | Block.heading lv c => Block.heading lv (replaceInline c)
  | Block.code_block lang c => Block.code_block lang (replaceInline c)
  | Block.blockquote lv c => Block.blockquote lv (replaceInline c)
  | Block.ul i c => Block.ul i (replaceInline c)
  | Block.ol i n c => Block.ol i n (replaceInline c)
  | Block.paragraph c => Block.paragraph (replaceInline c)

/-- The `process_inline` function (`inline_parser.py` lines 42-60). -/
def processInline (blocks : List Block) : List Block :=
  blocks.map inlineBlock

/-!  Renderer (`renderer.py`). -/

/-- Model of `html.escape(text)` with the default `quote=True` (Python standard
library): successive replacement of `&`, `<`, `>`, `"`, `'` by entities.
Because no replacement string contains a character replaced by a later
pass, the sequential passes equal this single character-wise map. -/
def escapeChar (c : Char) : List Char :=
  if c = '&' then "&amp;".data
  else if c = '<' then "&lt;".data
  else if c = '>' then "&gt;".data
  else if c = '"' then "&quot;".data
  else if c = Char.ofNat 39 then "&#x27;".data
  else [c]

/-- The `_escape` helper (`renderer.py` lines 22-24). -/
def escape (s : List Char) : List Char :=
  (s.map escapeChar).flatten

/-- One arm of the `render` dispatch (`renderer.py` lines 43-84); the
Python `block.get(...)` defaults never fire because `parse` always stores
the fields it reads. -/
def renderBlock : Block → List Char
  | Block.heading lv c =>
    "<h".data ++ (Nat.repr lv).data ++ ">".data ++ c ++
      "</h".data ++ (Nat.repr lv).data ++ ">".data
  | Block.paragraph c => "<p>".data ++ c ++ "</p>".data
  | Block.hr => "<hr/>".data
  | Block.code_block lang c =>
    if lang.isEmpty then "<pre><code>".data ++ escape c ++ "</code></pre>".data
    else
      "<pre><code class=\"language-".data ++ lang ++ "\">".data ++
        escape c ++ "</code></pre>".data
  | Block.blockquote lv c =>
    (List.replicate lv "<blockquote>".data).flatten ++ c ++
      (List.replicate lv "</blockquote>".data).flatten
  | Block.ul _ c => "<ul><li>".data ++ c ++ "</li></ul>".data
  | Block.ol _ _ c => "<ol><li>".data ++ c ++ "</li></ol>".data

/-- The `render` function (`renderer.py`): concatenate the fragments with no
separator. -/
def render (blocks : List Block) : List Char :=
  (blocks.map renderBlock).flatten

/-!  Lexer (`lexer.py`) and converter (`converter.py`). -/

/-- Worker for `str.splitlines`: accumulate the current line (reversed);
a `\r` immediately followed by `\n` is a single break; a break at end of
input produces no trailing empty line.  The fuel only bounds the number of
steps; each step consumes at least one character, so the string length
always suffices. -/
def splitlinesGo : Nat → List Char → List Char → List (List Char)
  | _, acc, [] => [acc.reverse]
  | 0, acc, s => [acc.reverse ++ s]
  | fuel + 1, acc, c :: cs =>
    if isLineBreak c then
      let rest := if c = '\r' && cs.head? = some '\n' then cs.tail else cs
      acc.reverse :: (if rest.isEmpty then [] else splitlinesGo fuel [] rest)
    else splitlinesGo fuel (c :: acc) cs

/-- The `tokenize` function (`lexer.py`): `markdown.splitlines()`. -/
def tokenize (s : List Char) : List (List Char) :=
  if s.isEmpty then [] else splitlinesGo s.length [] s

/-- The `convert` entry point (`converter.py` lines 17-44): early exit on empty or
whitespace-only input, otherwise lexing, parsing, inline processing,
rendering. -/
def convert (markdown : List Char) : List Char :=
  if markdown.isEmpty || (pyStrip markdown).isEmpty then []
  else render (processInline (parse (tokenize markdown)))

/-!  Projections of the block record fields, used to state frame
properties of `process_inline`. -/

/-- The `type` field of a block dict. -/
def blockTag : Block → String
  | Block.hr => "hr"
  | Block.heading _ _ => "heading"
  | Block.code_block _ _ => "code_block"
  | Block.blockquote _ _ => "blockquote"
  | Block.ul _ _ => "ul"
  | Block.ol _ _ _ => "ol"
  | Block.paragraph _ => "paragraph"

/-- The `level` field of a block dict, when present. -/
def blockLevel : Block → Option Nat
  | Block.heading lv _ => some lv
  | Block.blockquote lv _ => some lv
  | _ => none

/-- The `indent` field of a block dict, when present. -/
def blockIndent : Block → Option Nat
  | Block.ul i _ => some i
  | Block.ol i _ _ => some i
  | _ => none

/-- The `number` field of a block dict, when present. -/
def blockNumber : Block → Option Nat
  | Block.ol _ n _ => some n
  | _ => none

/-- The `language` field of a block dict, when present. -/
def blockLanguage : Block → Option Line
  | Block.code_block lang _ => some lang
  | _ => none

/-- The blockquote block built from one line (the loop body of
`parser.py` lines 89-97). -/
def bqBlockOf (l : Line) : Block :=
  let lv0 := l.length - (l.dropWhile (fun c => c = '>')).length
  Block.blockquote (if lv0 = 0 then 1 else lv0)
    (pyStrip (l.dropWhile (fun c => c = '>')))

/-- The unordered-item block built from one matching line. -/
def ulBlockOf (l : Line) : Block :=
  match matchUnordered l with
  | some (ind, _, t) => Block.ul ind (pyStrip t)
  | none => Block.paragraph []

/-- The stripped item text of an unordered-item line. -/
def ulContent (l : Line) : Line :=
  match matchUnordered l with
  | some (_, _, t) => pyStrip t
  | none => []

/-- Two lines identical up to the digit run of an ordered-item marker:
either equal, or both ordered-item lines with the same indent and item
text but arbitrary numbers. -/
def lineR (l1 l2 : Line) : Prop :=
  l1 = l2 ∨ ∃ i t n1 n2,
    matchOrdered l1 = some (i, n1, t) ∧ matchOrdered l2 = some (i, n2, t)

/-- Two blocks identical up to the `number` field of an `ol` block. -/
def blockR (b1 b2 : Block) : Prop :=
  b1 = b2 ∨ ∃ i n1 n2 c, b1 = Block.ol i n1 c ∧ b2 = Block.ol i n2 c

theorem isPrefixOf_iff {l1 l2 : List Char} :
    List.isPrefixOf l1 l2 = true ↔ l1 <+: l2 :=
  List.isPrefixOf_iff_prefix

theorem takeCodeLines_length_le (ls : List Line) :
    (takeCodeLines ls).2.length ≤ ls.length := by
  induction ls with
  | nil => simp [takeCodeLines]
  | cons l rest ih =>
    simp only [takeCodeLines]
    split
    · simp
    · simpa using Nat.le_succ_of_le ih

theorem takeBlockquotes_length_le (line : Line) (ls : List Line) :
    (takeBlockquotes line ls).2.length ≤ ls.length := by
  induction ls generalizing line with
  | nil => simp [takeBlockquotes]
  | cons l2 rest2 ih =>
    simp only [takeBlockquotes]
    split
    · simpa using Nat.le_succ_of_le (ih l2)
    · simp

theorem takePara_length_le (ls : List Line) :
    (takePara ls).2.length ≤ ls.length := by
  induction ls with
  | nil => simp [takePara]
  | cons l rest ih =>
    simp only [takePara]
    split
    · simp
    · split
      · simp
      · simpa using Nat.le_succ_of_le ih

theorem parseStep_length_le (line : Line) (rest : List Line) :
    (parseStep line rest).2.length ≤ rest.length := by
  simp only [parseStep]
  split
  · simp
  · split
    · simp
    · split
      · exact takeCodeLines_length_le rest
      · split
        · exact takeBlockquotes_length_le line rest
        · split
          · simp
          · split
            · simp
            · split
              · simp
              · exact takePara_length_le rest

theorem parseGo_fuel_irrel (f1 : Nat) :
    ∀ (f2 : Nat) (ls : List Line), ls.length ≤ f1 → ls.length ≤ f2 →
      parseGo f1 ls = parseGo f2 ls := by
  induction f1 with
  | zero =>
    intro f2 ls h1 _
    have : ls = [] := List.length_eq_zero.mp (Nat.le_zero.mp h1)
    subst this
    cases f2 <;> simp [parseGo]
  | succ f1 ih =>
    intro f2 ls h1 h2
    match ls with
    | [] => cases f2 <;> simp [parseGo]
    | line :: rest =>
      match f2 with
      | 0 => exact absurd h2 (by simp)
      | f2 + 1 =>
        simp only [parseGo]
        have hlen := parseStep_length_le line rest
        have hrest : rest.length ≤ f1 := by simpa using h1
        have hrest2 : rest.length ≤ f2 := by simpa using h2
        rw [ih f2 (parseStep line rest).2 (Nat.le_trans hlen hrest) (Nat.le_trans hlen hrest2)]

/-- Unfolding equation for `parse` on a nonempty line list. -/
theorem parse_cons (line : Line) (rest : List Line) :
    parse (line :: rest) =
      (parseStep line rest).1 ++ parse (parseStep line rest).2 := by
  show parseGo (rest.length + 1) (line :: rest) = _
  simp only [parseGo]
  congr 1
  exact parseGo_fuel_irrel rest.length _ _
    (Nat.le_trans (parseStep_length_le line rest) (Nat.le_refl _)) (Nat.le_refl _)

theorem parse_nil : parse [] = [] := rfl

/-!  Helper lemmas about stripping and line classification. -/

theorem dropWhile_head_false {p : Char → Bool} {l t : List Char} {c : Char}
    (h : List.dropWhile p l = c :: t) : p c = false := by
  induction l with
  | nil => simp at h
  | cons a l2 ih =>
    rw [List.dropWhile_cons] at h
    by_cases hp : p a
    · rw [if_pos hp] at h; exact ih h
    · rw [if_neg hp] at h
      injection h with h1 _
      subst h1
      simpa using hp

theorem pyStrip_eq_nil_iff (l : List Char) :
    pyStrip l = [] ↔ ∀ c ∈ l, pySpace c := by
  unfold pyStrip stripRight
  constructor
  · intro h c hc
    have h2 : List.dropWhile pySpace (List.dropWhile pySpace l).reverse = [] := by
      simpa using congrArg List.reverse h
    have h3 : ∀ x ∈ (List.dropWhile pySpace l).reverse, pySpace x :=
      List.dropWhile_eq_nil_iff.mp h2
    have h4 : ∀ x ∈ List.dropWhile pySpace l, pySpace x := by
      intro x hx
      exact h3 x (List.mem_reverse.mpr hx)
    have h5 : l = List.takeWhile pySpace l ++ List.dropWhile pySpace l :=
      (List.takeWhile_append_dropWhile pySpace l).symm
    rw [h5] at hc
    rcases List.mem_append.mp hc with h6 | h6
    · exact List.mem_takeWhile_imp h6
    · exact h4 c h6
  · intro h
    have h2 : List.dropWhile pySpace l = [] :=
      List.dropWhile_eq_nil_iff.mpr h
    simp [h2]

theorem pyStrip_ne_nil_of_head {l t : List Char} {c : Char}
    (h : List.dropWhile pySpace l = c :: t) : pyStrip l ≠ [] := by
  intro hnil
  have hc : pySpace c = false := dropWhile_head_false h
  have hmem : c ∈ l := by
    have hm : c ∈ List.dropWhile pySpace l := by rw [h]; exact List.mem_cons_self c t
    exact (List.dropWhile_sublist _).mem hm
  have := (pyStrip_eq_nil_iff l).mp hnil c hmem
  rw [hc] at this
  exact Bool.false_ne_true this

theorem pyStrip_dropWhile (l : List Char) :
    pyStrip (l.dropWhile pySpace) = pyStrip l := by
  unfold pyStrip
  rw [List.dropWhile_idempotent]

/-- Shape of a line matching the blockquote pattern. -/
theorem matchBlockquote_shape {l : Line} (h : matchBlockquote l = true) :
    ∃ t, l.dropWhile pySpace = '>' :: t := by
  unfold matchBlockquote at h
  rcases hd : l.dropWhile pySpace with _ | ⟨c, t⟩ <;> rw [hd] at h
  · simp at h
  · have hc : c = '>' := by simpa using h
    exact ⟨t, by simp [hd, hc]⟩

/-- Shape of a line matching the unordered-item pattern. -/
theorem matchUnordered_shape {l : Line} {x : Nat × Char × Line}
    (h : matchUnordered l = some x) :
    ∃ c t, l.dropWhile pySpace = c :: t ∧ (c = '-' ∨ c = '*' ∨ c = '+') := by
  unfold matchUnordered at h
  rcases hd : l.dropWhile pySpace with _ | ⟨c, t⟩ <;> rw [hd] at h
  · simp at h
  · refine ⟨c, t, rfl, ?_⟩
    by_contra hc
    push_neg at hc
    obtain ⟨h1, h2, h3⟩ := hc
    simp [h1, h2, h3] at h

/-- Shape of a line matching the ordered-item pattern. -/
theorem matchOrdered_shape {l : Line} {x : Nat × Nat × Line}
    (h : matchOrdered l = some x) :
    ∃ c t, l.dropWhile pySpace = c :: t ∧ c.isDigit = true := by
  unfold matchOrdered at h
  rcases hd : l.dropWhile pySpace with _ | ⟨c, t⟩ <;> rw [hd] at h
  · simp at h
  · refine ⟨c, t, rfl, ?_⟩
    by_contra hc
    simp [Bool.eq_false_iff.mpr hc] at h

/-- A fence-start line begins with a backtick. -/
theorem matchFenceStart_shape {l : Line} {x : Line}
    (h : matchFenceStart l = some x) : ∃ t, l = btick :: t := by
  unfold matchFenceStart at h
  by_cases hp : List.isPrefixOf [btick, btick, btick] l
  · rcases (isPrefixOf_iff.mp hp) with ⟨s, hs⟩
    exact ⟨btick :: btick :: s, by rw [← hs]; rfl⟩
  · rw [if_neg hp] at h; simp at h

theorem matchHR_eq_false_of_head {l t : List Char} {c : Char}
    (hd : l.dropWhile pySpace = c :: t)
    (h1 : c ≠ '*') (h2 : c ≠ '-') (h3 : c ≠ '_') : matchHR l = false := by
  unfold matchHR
  rw [hd]
  have e1 : List.isPrefixOf ['*', '*', '*'] (c :: t) = false := by
    simp [List.isPrefixOf]; intro hc; exact absurd hc.symm h1
  have e2 : List.isPrefixOf ['-', '-', '-'] (c :: t) = false := by
    simp [List.isPrefixOf]; intro hc; exact absurd hc.symm h2
  have e3 : List.isPrefixOf ['_', '_', '_'] (c :: t) = false := by
    simp [List.isPrefixOf]; intro hc; exact absurd hc.symm h3
  simp [e1, e2, e3]

theorem matchHeading_eq_none_of_head {l t : List Char} {c : Char}
    (hd : l.dropWhile pySpace = c :: t) (hne : c ≠ '#') :
    matchHeading l = none := by
  cases l with
  | nil => simp at hd
  | cons a l2 =>
    unfold matchHeading
    by_cases ha : pySpace a
    · have ha' : a ≠ '#' := by
        intro h; subst h; exact absurd ha (by decide)
      simp [List.takeWhile_cons, ha']
    · rw [List.dropWhile_cons, if_neg ha] at hd
      injection hd with hac _
      subst hac
      simp [List.takeWhile_cons, hne]

theorem matchFenceStart_eq_none_of_head {l t : List Char} {c : Char}
    (hd : l.dropWhile pySpace = c :: t) (hne : c ≠ btick) :
    matchFenceStart l = none := by
  cases l with
  | nil => simp at hd
  | cons a l2 =>
    unfold matchFenceStart
    have ha' : a ≠ btick := by
      by_cases ha : pySpace a
      · intro h; subst h; exact absurd ha (by decide)
      · rw [List.dropWhile_cons, if_neg ha] at hd
        injection hd with hac _
        subst hac
        exact hne
    have : List.isPrefixOf [btick, btick, btick] (a :: l2) = false := by
      simp [List.isPrefixOf]; intro hc; exact absurd hc.symm ha'
    simp [this]

theorem matchBlockquote_eq_false_of_head {l t : List Char} {c : Char}
    (hd : l.dropWhile pySpace = c :: t) (hne : c ≠ '>') :
    matchBlockquote l = false := by
  unfold matchBlockquote
  rw [hd]
  simpa using hne

theorem matchUnordered_eq_none_of_head {l t : List Char} {c : Char}
    (hd : l.dropWhile pySpace = c :: t)
    (h1 : c ≠ '-') (h2 : c ≠ '*') (h3 : c ≠ '+') :
    matchUnordered l = none := by
  unfold matchUnordered
  rw [hd]
  simp [h1, h2, h3]

theorem matchOrdered_eq_none_of_head {l t : List Char} {c : Char}
    (hd : l.dropWhile pySpace = c :: t) (hc : c.isDigit = false) :
    matchOrdered l = none := by
  unfold matchOrdered
  rw [hd]
  simp [hc]

/-- An unordered-item line in full detail: after the optional leading
whitespace come the marker and a whitespace character. -/
theorem matchUnordered_shape2 {l : Line} {x : Nat × Char × Line}
    (h : matchUnordered l = some x) :
    ∃ c c2 t, l.dropWhile pySpace = c :: c2 :: t ∧
      (c = '-' ∨ c = '*' ∨ c = '+') ∧ pySpace c2 = true := by
  obtain ⟨c, t, hd, hc⟩ := matchUnordered_shape h
  unfold matchUnordered at h
  rw [hd] at h
  have hcb : (c = '-' || c = '*' || c = '+') = true := by
    rcases hc with rfl | rfl | rfl <;> decide
  rcases ht : t with _ | ⟨c2, t2⟩ <;> rw [ht] at h <;> simp only [hcb, if_true] at h
  · simp at h
  · refine ⟨c, c2, t2, by rw [hd, ht], hc, ?_⟩
    by_contra h2
    simp [Bool.eq_false_iff.mpr h2] at h

/-- The three horizontal-rule alternatives all need a non-whitespace
second character after the leading whitespace. -/
theorem matchHR_eq_false_of_second {l t : List Char} {c c2 : Char}
    (hd : l.dropWhile pySpace = c :: c2 :: t) (h2 : pySpace c2 = true) :
    matchHR l = false := by
  have e1 : c2 ≠ '*' := by rintro rfl; exact absurd h2 (by decide)
  have e2 : c2 ≠ '-' := by rintro rfl; exact absurd h2 (by decide)
  have e3 : c2 ≠ '_' := by rintro rfl; exact absurd h2 (by decide)
  have f1 : List.isPrefixOf ['*', '*', '*'] (c :: c2 :: t) = false := by
    simp [List.isPrefixOf]
    intro _ h
    exact absurd h.symm e1
  have f2 : List.isPrefixOf ['-', '-', '-'] (c :: c2 :: t) = false := by
    simp [List.isPrefixOf]
    intro _ h
    exact absurd h.symm e2
  have f3 : List.isPrefixOf ['_', '_', '_'] (c :: c2 :: t) = false := by
    simp [List.isPrefixOf]
    intro _ h
    exact absurd h.symm e3
  unfold matchHR
  rw [hd]
  simp [f1, f2, f3]

/-!  Branch equations for `parseStep`, with the earlier rules discharged
from the shape of the matching line. -/

theorem parseStep_hr {line : Line} {rest : List Line} (h : matchHR line = true) :
    parseStep line rest = ([Block.hr], rest) := by
  simp [parseStep, h]

theorem parseStep_heading {line : Line} {rest : List Line} {lv : Nat} {g2 : Line}
    (hhr : matchHR line = false) (hh : matchHeading line = some (lv, g2)) :
    parseStep line rest = ([Block.heading lv (pyStrip g2)], rest) := by
  simp [parseStep, hhr, hh]

theorem parseStep_of_fence {line : Line} {rest : List Line} {lang : Line}
    (hf : matchFenceStart line = some lang) :
    parseStep line rest =
      ([Block.code_block lang (List.intercalate ['\n'] (takeCodeLines rest).1)],
        (takeCodeLines rest).2) := by
  obtain ⟨t, rfl⟩ := matchFenceStart_shape hf
  have hd : (btick :: t).dropWhile pySpace = btick :: t := by
    rw [List.dropWhile_cons, if_neg (by decide)]
  have hhr := matchHR_eq_false_of_head hd (by decide) (by decide) (by decide)
  have hh := matchHeading_eq_none_of_head hd (by decide)
  simp [parseStep, hhr, hh, hf]

theorem parseStep_of_blockquote {line : Line} {rest : List Line}
    (hbq : matchBlockquote line = true) :
    parseStep line rest = takeBlockquotes line rest := by
  obtain ⟨t, hd⟩ := matchBlockquote_shape hbq
  have hhr := matchHR_eq_false_of_head hd (by decide) (by decide) (by decide)
  have hh := matchHeading_eq_none_of_head hd (by decide)
  have hf := matchFenceStart_eq_none_of_head hd (by decide)
  simp [parseStep, hhr, hh, hf, hbq]

theorem parseStep_of_unordered {line : Line} {rest : List Line} {ind : Nat}
    {m : Char} {t : Line} (hu : matchUnordered line = some (ind, m, t)) :
    parseStep line rest = ([Block.ul ind (pyStrip t)], rest) := by
  obtain ⟨c, c2, t2, hd, hc, h2⟩ := matchUnordered_shape2 hu
  have hhr := matchHR_eq_false_of_second hd h2
  have hh : matchHeading line = none := by
    rcases hc with rfl | rfl | rfl <;> exact matchHeading_eq_none_of_head hd (by decide)
  have hf : matchFenceStart line = none := by
    rcases hc with rfl | rfl | rfl <;> exact matchFenceStart_eq_none_of_head hd (by decide)
  have hbq : matchBlockquote line = false := by
    rcases hc with rfl | rfl | rfl <;> exact matchBlockquote_eq_false_of_head hd (by decide)
  simp [parseStep, hhr, hh, hf, hbq, hu]

theorem parseStep_of_ordered {line : Line} {rest : List Line} {ind n : Nat}
    {t : Line} (ho : matchOrdered line = some (ind, n, t)) :
    parseStep line rest = ([Block.ol ind n (pyStrip t)], rest) := by
  obtain ⟨c, t2, hd, hdig⟩ := matchOrdered_shape ho
  have e1 : c ≠ '*' := by rintro rfl; exact absurd hdig (by decide)
  have e2 : c ≠ '-' := by rintro rfl; exact absurd hdig (by decide)
  have e3 : c ≠ '_' := by rintro rfl; exact absurd hdig (by decide)
  have e4 : c ≠ '#' := by rintro rfl; exact absurd hdig (by decide)
  have e5 : c ≠ btick := by rintro rfl; exact absurd hdig (by decide)
  have e6 : c ≠ '>' := by rintro rfl; exact absurd hdig (by decide)
  have e7 : c ≠ '+' := by rintro rfl; exact absurd hdig (by decide)
  have hhr := matchHR_eq_false_of_head hd e1 e2 e3
  have hh := matchHeading_eq_none_of_head hd e4
  have hf := matchFenceStart_eq_none_of_head hd e5
  have hbq := matchBlockquote_eq_false_of_head hd e6
  have hu := matchUnordered_eq_none_of_head hd e2 e1 e7
  simp [parseStep, hhr, hh, hf, hbq, hu, ho]

theorem parseStep_blank {line : Line} {rest : List Line}
    (hhr : matchHR line = false) (hh : matchHeading line = none)
    (hf : matchFenceStart line = none) (hbq : matchBlockquote line = false)
    (hu : matchUnordered line = none) (ho : matchOrdered line = none)
    (hb : pyStrip line = []) :
    parseStep line rest = ([], rest) := by
  simp [parseStep, hhr, hh, hf, hbq, hu, ho, hb]

theorem parseStep_para {line : Line} {rest : List Line}
    (hhr : matchHR line = false) (hh : matchHeading line = none)
    (hf : matchFenceStart line = none) (hbq : matchBlockquote line = false)
    (hu : matchUnordered line = none) (ho : matchOrdered line = none)
    (hb : pyStrip line ≠ []) :
    parseStep line rest =
      ([Block.paragraph (List.intercalate [' '] (pyStrip line :: (takePara rest).1))],
        (takePara rest).2) := by
  simp [parseStep, hhr, hh, hf, hbq, hu, ho, hb]

theorem inlineBlock_tag (b : Block) : blockTag (inlineBlock b) = blockTag b := by
  cases b <;> rfl

theorem inlineBlock_level (b : Block) : blockLevel (inlineBlock b) = blockLevel b := by
  cases b <;> rfl

theorem inlineBlock_indent (b : Block) : blockIndent (inlineBlock b) = blockIndent b := by
  cases b <;> rfl

theorem inlineBlock_number (b : Block) : blockNumber (inlineBlock b) = blockNumber b := by
  cases b <;> rfl

theorem inlineBlock_language (b : Block) : blockLanguage (inlineBlock b) = blockLanguage b := by
  cases b <;> rfl

/-!  Claim theorems. -/

/-- C4: an input that is empty or consists only of whitespace characters
converts to exactly the empty string (the pipeline is bypassed by the
early return in `convert`). -/
theorem convert_whitespace_only (s : List Char) (h : ∀ c ∈ s, pySpace c) :
    convert s = [] := by
  unfold convert
  have hs : pyStrip s = [] := (pyStrip_eq_nil_iff s).mpr h
  simp [hs]

theorem convert_whitespace_only_witness :
    (∀ c ∈ "  \t\n ".data, pySpace c) ∧ convert "  \t\n ".data = [] :=
  ⟨by decide, convert_whitespace_only "  \t\n ".data (by decide)⟩

/-- C3: the inline cascade is applied to `CodeBlock` content (the cascade
is keyed only on the presence of a `content` field), the renderer then
HTML-entity-escapes that content, and so inline-markdown syntax inside a
fenced code block surfaces as escaped tag text — neither verbatim nor
rendered markup (`**bold**` becomes `&lt;strong&gt;bold&lt;/strong&gt;`). -/
theorem codeblock_inline_then_escaped :
    (∀ lang c, processInline [Block.code_block lang c] =
      [Block.code_block lang (replaceInline c)]) ∧
    (∀ c, renderBlock (Block.code_block [] c) =
      "<pre><code>".data ++ escape c ++ "</code></pre>".data) ∧
    convert "```\n**bold**\n```".data =
      "<pre><code>&lt;strong&gt;bold&lt;/strong&gt;</code></pre>".data :=
  ⟨fun _ _ => rfl, fun _ => rfl, by decide⟩

/-- C2, counterexample: a span already converted by an earlier rule IS
reprocessed by a later rule — the underscores inside the `href` attribute
inserted by the link rule are rewritten by the italic rule. -/
theorem inline_reprocessing_counterexample :
    replaceInline "[x](a_b_c)".data = "<a href=\"a<em>b</em>c\">x</a>".data ∧
    replaceInline "[x](a_b_c)".data ≠ "<a href=\"a_b_c\">x</a>".data := by
  refine ⟨by decide, by decide⟩

/-- C2, amended: the five substitutions run in the fixed order image,
link, code span, bold, italic, each applied globally across the whole
string before the next rule runs; but the text inserted by an earlier
rule is not protected from later rules (e.g. the underscores inside an
inserted `<code>` span are italicized). -/
theorem inline_order_amended :
    (∀ t, replaceInline t =
      subst tryItalic (subst tryBold (subst tryCode (subst tryLink (subst tryImage t))))) ∧
    replaceInline "x `code_with_under` y".data =
      "x <code>code<em>with</em>under</code> y".data :=
  ⟨fun _ => rfl, by decide⟩

/-- C10: `process_inline` keeps the number and order of blocks and every
field other than `content` (`type`, `level`, `indent`, `number`,
`language`); an `hr` block (no `content` field) is left unchanged. -/
theorem processInline_frame (bs : List Block) :
    (processInline bs).length = bs.length ∧
    (∀ i : Nat, (processInline bs)[i]?.map blockTag = bs[i]?.map blockTag) ∧
    (∀ i : Nat, (processInline bs)[i]?.bind blockLevel = bs[i]?.bind blockLevel) ∧
    (∀ i : Nat, (processInline bs)[i]?.bind blockIndent = bs[i]?.bind blockIndent) ∧
    (∀ i : Nat, (processInline bs)[i]?.bind blockNumber = bs[i]?.bind blockNumber) ∧
    (∀ i : Nat, (processInline bs)[i]?.bind blockLanguage = bs[i]?.bind blockLanguage) ∧
    (∀ i : Nat, bs[i]? = some Block.hr → (processInline bs)[i]? = some Block.hr) := by
  unfold processInline
  refine ⟨by simp, fun i => ?_, fun i => ?_, fun i => ?_, fun i => ?_, fun i => ?_,
    fun i hi => ?_⟩ <;> rw [List.getElem?_map]
  · rcases bs[i]? with _ | b
    · rfl
    · simp [inlineBlock_tag]
  · rcases bs[i]? with _ | b
    · rfl
    · simp [inlineBlock_level]
  · rcases bs[i]? with _ | b
    · rfl
    · simp [inlineBlock_indent]
  · rcases bs[i]? with _ | b
    · rfl
    · simp [inlineBlock_number]
  · rcases bs[i]? with _ | b
    · rfl
    · simp [inlineBlock_language]
  · rw [hi]
    rfl

theorem processInline_frame_witness :
    (processInline [Block.hr])[0]? = some Block.hr :=
  (processInline_frame [Block.hr]).2.2.2.2.2.2 0 rfl

/-- Right-stripping to a whitespace-free word `pat` is the same as having
`pat` as a prefix with only whitespace after it. -/
theorem stripRight_eq_iff {r pat : List Char} (hpat : ∀ c ∈ pat, pySpace c = false) :
    stripRight r = pat ↔
      (List.isPrefixOf pat r = true ∧ (r.drop pat.length).all pySpace = true) := by
  constructor
  · intro h
    have h1 : List.dropWhile pySpace r.reverse = pat.reverse := by
      have h0 := congrArg List.reverse h
      simpa [stripRight] using h0
    have h2 : r.reverse = List.takeWhile pySpace r.reverse ++ pat.reverse := by
      conv_lhs => rw [← List.takeWhile_append_dropWhile pySpace r.reverse, h1]
    have h3 : r = pat ++ (List.takeWhile pySpace r.reverse).reverse := by
      have h0 := congrArg List.reverse h2
      simpa using h0
    constructor
    · rw [h3]
      exact isPrefixOf_iff.mpr ⟨_, rfl⟩
    · rw [h3, List.drop_left, List.all_eq_true]
      intro x hx
      exact List.mem_takeWhile_imp (List.mem_reverse.mp hx)
  · rintro ⟨h1, h2⟩
    obtain ⟨s, rfl⟩ := isPrefixOf_iff.mp h1
    rw [List.drop_left] at h2
    unfold stripRight
    rw [List.reverse_append]
    rw [List.dropWhile_append_of_pos (by
      intro a ha
      exact List.all_eq_true.mp h2 a (List.mem_reverse.mp ha))]
    have hdp : List.dropWhile pySpace pat.reverse = pat.reverse := by
      cases hp : pat.reverse with
      | nil => simp
      | cons a t =>
        have ha : a ∈ pat := by
          rw [← List.mem_reverse, hp]
          exact List.mem_cons_self a t
        rw [List.dropWhile_cons, if_neg (by simp [hpat a ha])]
    rw [hdp, List.reverse_reverse]

/-- The pattern `_RE_HR` matches exactly the lines whose stripped form is one of the
three three-character sequences. -/
theorem matchHR_iff (l : Line) :
    matchHR l = true ↔
      (pyStrip l = ['*', '*', '*'] ∨ pyStrip l = ['-', '-', '-'] ∨
        pyStrip l = ['_', '_', '_']) := by
  have e1 := @stripRight_eq_iff (l.dropWhile pySpace) ['*', '*', '*'] (by decide)
  have e2 := @stripRight_eq_iff (l.dropWhile pySpace) ['-', '-', '-'] (by decide)
  have e3 := @stripRight_eq_iff (l.dropWhile pySpace) ['_', '_', '_'] (by decide)
  rw [show (['*', '*', '*'] : List Char).length = 3 from rfl] at e1
  rw [show (['-', '-', '-'] : List Char).length = 3 from rfl] at e2
  rw [show (['_', '_', '_'] : List Char).length = 3 from rfl] at e3
  unfold matchHR pyStrip
  simp only [Bool.or_eq_true, Bool.and_eq_true]
  constructor
  · rintro ((h | h) | h)
    · exact Or.inl (e1.mpr h)
    · exact Or.inr (Or.inl (e2.mpr h))
    · exact Or.inr (Or.inr (e3.mpr h))
  · rintro (h | h | h)
    · exact Or.inl (Or.inl (e1.mp h))
    · exact Or.inl (Or.inr (e2.mp h))
    · exact Or.inr (e3.mp h)

/-- A single line parses to exactly `[hr]` precisely when `_RE_HR`
matches it (every other branch of the classification produces a block of
a different type). -/
theorem parse_single_hr_iff (l : Line) :
    parse [l] = [Block.hr] ↔ matchHR l = true := by
  constructor
  · intro h
    by_contra hhr0
    have hhr : matchHR l = false := Bool.not_eq_true _ ▸ Bool.eq_false_iff.mpr hhr0
    rcases hh : matchHeading l with _ | ⟨lv, g2⟩
    · rcases hf : matchFenceStart l with _ | lang
      · by_cases hbq : matchBlockquote l
        · rw [parse_cons, parseStep_of_blockquote hbq] at h
          simp [takeBlockquotes, parse_nil] at h
        · have hbq' : matchBlockquote l = false := Bool.eq_false_iff.mpr hbq
          rcases hu : matchUnordered l with _ | ⟨i, m, t⟩
          · rcases ho : matchOrdered l with _ | ⟨i, n, t⟩
            · by_cases hb : pyStrip l = []
              · rw [parse_cons, parseStep_blank hhr hh hf hbq' hu ho hb] at h
                simp [parse_nil] at h
              · rw [parse_cons, parseStep_para hhr hh hf hbq' hu ho hb] at h
                simp [parse_nil] at h
            · rw [parse_cons, parseStep_of_ordered ho] at h
              simp [parse_nil] at h
          · rw [parse_cons, parseStep_of_unordered hu] at h
            simp [parse_nil] at h
      · rw [parse_cons, parseStep_of_fence hf] at h
        simp [takeCodeLines, parse_nil] at h
    · rw [parse_cons, parseStep_heading hhr hh] at h
      simp [parse_nil] at h
  · intro h
    rw [parse_cons, parseStep_hr h]
    rfl

/-- C5: a line is classified as a horizontal rule (rendered `<hr/>`)
exactly when its whitespace-stripped form is `***`, `---` or `___`; runs
of four or more of the same character do not qualify. -/
theorem hr_exactly_three (l : Line) :
    (parse [l] = [Block.hr] ↔
      (pyStrip l = "***".data ∨ pyStrip l = "---".data ∨ pyStrip l = "___".data)) ∧
    renderBlock Block.hr = "<hr/>".data ∧
    parse ["****".data] ≠ [Block.hr] ∧
    parse ["----".data] ≠ [Block.hr] ∧
    parse ["____".data] ≠ [Block.hr] := by
  refine ⟨?_, rfl, by decide, by decide, by decide⟩
  rw [parse_single_hr_iff l, matchHR_iff l]

/-- A string without line terminators is a single line. -/
theorem splitlinesGo_no_break (s : List Char) :
    ∀ (fuel : Nat) (acc : List Char), (∀ c ∈ s, isLineBreak c = false) →
      splitlinesGo fuel acc s = [acc.reverse ++ s] := by
  induction s with
  | nil =>
    intro fuel acc _
    cases fuel <;> simp [splitlinesGo]
  | cons c cs ih =>
    intro fuel acc h
    have hc : isLineBreak c = false := h c (List.mem_cons_self c cs)
    cases fuel with
    | zero => simp [splitlinesGo]
    | succ fuel =>
      rw [splitlinesGo, if_neg (by simp [hc])]
      rw [ih fuel (c :: acc) (fun x hx => h x (List.mem_cons_of_mem c hx))]
      simp

theorem hr_exactly_three_witness :
    parse ["  ---  ".data] = [Block.hr] :=
  ((hr_exactly_three "  ---  ".data).1).mpr (Or.inr (Or.inl (by decide)))

/-- Applying `tokenize` to a nonempty break-free string yields that single line. -/
theorem tokenize_single (s : List Char) (hne : s ≠ [])
    (h : ∀ c ∈ s, isLineBreak c = false) : tokenize s = [s] := by
  unfold tokenize
  rw [if_neg (by simpa [List.isEmpty_iff] using hne)]
  rw [splitlinesGo_no_break s s.length [] h]
  rfl

/-- C6: for N in 1..6, a line of N `#` characters, a space and the
heading text converts to `<hN>text</hN>`, the `#` run length giving the
level and the text being stripped of surrounding whitespace (stated for
text that the inline cascade leaves unchanged). -/
theorem heading_levels (N : Nat) (text : List Char)
    (h1 : 1 ≤ N) (h6 : N ≤ 6)
    (hbr : ∀ c ∈ text, isLineBreak c = false)
    (hrep : replaceInline (pyStrip text) = pyStrip text) :
    convert (List.replicate N '#' ++ ' ' :: text) =
      "<h".data ++ (Nat.repr N).data ++ ">".data ++ pyStrip text ++
        "</h".data ++ (Nat.repr N).data ++ ">".data := by
  obtain ⟨N', rfl⟩ : ∃ N', N = N' + 1 :=
    ⟨N - 1, (Nat.succ_pred_eq_of_pos h1).symm⟩
  set md := List.replicate (N' + 1) '#' ++ ' ' :: text with hmd
  have hmd2 : md = '#' :: (List.replicate N' '#' ++ ' ' :: text) := by
    rw [hmd, List.replicate_succ, List.cons_append]
  have hd : md.dropWhile pySpace = '#' :: (List.replicate N' '#' ++ ' ' :: text) := by
    rw [hmd2, List.dropWhile_cons, if_neg (by decide)]
  -- the early-exit test of `convert` does not fire
  have hne : md.isEmpty = false := by rw [hmd2]; rfl
  have hstrip : (pyStrip md).isEmpty = false := by
    rcases hs : pyStrip md with _ | _
    · exact absurd hs (pyStrip_ne_nil_of_head hd)
    · rfl
  -- the lexer produces the single line
  have htok : tokenize md = [md] := by
    refine tokenize_single md (by rw [hmd2]; exact List.cons_ne_nil _ _) ?_
    intro c hc
    rw [hmd2] at hc
    rcases List.mem_cons.mp hc with rfl | hc
    · decide
    · rcases List.mem_append.mp hc with hc | hc
      · rw [List.eq_of_mem_replicate hc]; decide
      · rcases List.mem_cons.mp hc with rfl | hc
        · decide
        · exact hbr c hc
  -- the heading rule fires with level N and group 2 = text minus leading space
  have hhr : matchHR md = false :=
    matchHR_eq_false_of_head hd (by decide) (by decide) (by decide)
  have hlen : (List.replicate (N' + 1) '#').length = N' + 1 := List.length_replicate _ _
  have hh : matchHeading md = some (N' + 1, text.dropWhile pySpace) := by
    have hrun : md.takeWhile (fun c => c = '#') = List.replicate (N' + 1) '#' := by
      rw [hmd]
      rw [List.takeWhile_append_of_pos (by
        intro a ha
        simp [List.eq_of_mem_replicate ha])]
      rw [List.takeWhile_cons, if_neg (by decide)]
      simp
    have hdrop : md.drop (N' + 1) = ' ' :: text := by
      rw [hmd]
      exact List.drop_left' hlen
    unfold matchHeading
    rw [hrun]
    rw [if_neg (by simp)]
    have hk : min (List.replicate (N' + 1) '#').length 6 = N' + 1 := by
      rw [hlen]
      exact Nat.min_eq_left h6
    rw [hk]
    show some (N' + 1, List.dropWhile pySpace (md.drop (N' + 1))) = _
    rw [hdrop, List.dropWhile_cons, if_pos (by decide)]
  have hparse : parse [md] = [Block.heading (N' + 1) (pyStrip text)] := by
    rw [parse_cons, parseStep_heading hhr hh]
    show [Block.heading (N' + 1) (pyStrip (text.dropWhile pySpace))] ++ parse [] = _
    rw [pyStrip_dropWhile, parse_nil, List.append_nil]
  unfold convert
  rw [hne, hstrip]
  simp only [Bool.false_or, Bool.or_self, if_false]
  rw [htok, hparse]
  show render [Block.heading (N' + 1) (replaceInline (pyStrip text))] = _
  rw [hrep]
  simp [render, renderBlock]

theorem heading_levels_witness :
    (1 ≤ 2 ∧ (2 : Nat) ≤ 6 ∧ (∀ c ∈ "Hello".data, isLineBreak c = false) ∧
      replaceInline (pyStrip "Hello".data) = pyStrip "Hello".data) ∧
    convert (List.replicate 2 '#' ++ ' ' :: "Hello".data) =
      "<h".data ++ (Nat.repr 2).data ++ ">".data ++ pyStrip "Hello".data ++
        "</h".data ++ (Nat.repr 2).data ++ ">".data :=
  ⟨⟨by decide, by decide, by decide, by decide⟩,
    heading_levels 2 "Hello".data (by decide) (by decide) (by decide) (by decide)⟩

theorem takeBlockquotes_all (line : Line) (rest : List Line)
    (h : ∀ l ∈ rest, matchBlockquote l = true) :
    takeBlockquotes line rest = ((line :: rest).map bqBlockOf, []) := by
  induction rest generalizing line with
  | nil => simp [takeBlockquotes, bqBlockOf]
  | cons l2 rest2 ih =>
    rw [takeBlockquotes]
    rw [if_pos (h l2 (List.mem_cons_self l2 rest2))]
    rw [ih l2 (fun x hx => h x (List.mem_cons_of_mem l2 hx))]
    simp [bqBlockOf]

/-- The `level` stored by the blockquote rule is the length of the
line's own leading run of `>` characters, floored to 1. -/
theorem bqBlockOf_level (l : Line) :
    bqBlockOf l =
      Block.blockquote (max 1 (l.takeWhile (fun c => c = '>')).length)
        (pyStrip (l.dropWhile (fun c => c = '>'))) := by
  unfold bqBlockOf
  have hsplit : (l.takeWhile (fun c => c = '>')).length +
      (l.dropWhile (fun c => c = '>')).length = l.length := by
    conv_rhs => rw [← List.takeWhile_append_dropWhile (fun c => decide (c = '>')) l]
    rw [List.length_append]
  have hlen : l.length - (l.dropWhile (fun c => c = '>')).length =
      (l.takeWhile (fun c => c = '>')).length := by omega
  rw [hlen]
  cases hn : (l.takeWhile (fun c => c = '>')).length with
  | zero => rfl
  | succ n => simp [Nat.max_eq_right (Nat.succ_le_succ (Nat.zero_le n))]

/-- C1: every line matching the blockquote pattern yields one
`Blockquote` block whose level is the length of that line's own leading
`>` run (independent of preceding whitespace, floored to 1), and the
renderer wraps the line's content in exactly `level` `<blockquote>` opens
followed by `level` closes. -/
theorem blockquote_per_line (lines : List Line)
    (h : ∀ l ∈ lines, matchBlockquote l = true) :
    parse lines = lines.map bqBlockOf ∧
    (∀ l : Line, bqBlockOf l =
      Block.blockquote (max 1 (l.takeWhile (fun c => c = '>')).length)
        (pyStrip (l.dropWhile (fun c => c = '>')))) ∧
    (∀ (lv : Nat) (c : Line), renderBlock (Block.blockquote lv c) =
      (List.replicate lv "<blockquote>".data).flatten ++ c ++
        (List.replicate lv "</blockquote>".data).flatten) := by
  refine ⟨?_, bqBlockOf_level, fun lv c => rfl⟩
  cases lines with
  | nil => rfl
  | cons l rest =>
    rw [parse_cons, parseStep_of_blockquote (h l (List.mem_cons_self l rest))]
    rw [takeBlockquotes_all l rest (fun x hx => h x (List.mem_cons_of_mem l hx))]
    simp [parse_nil]

theorem blockquote_per_line_witness :
    (∀ l ∈ ["> a".data, "  > b".data, ">>c".data], matchBlockquote l = true) ∧
    parse ["> a".data, "  > b".data, ">>c".data] =
      [Block.blockquote 1 "a".data, Block.blockquote 1 "> b".data,
        Block.blockquote 2 "c".data] := by
  refine ⟨by decide, ?_⟩
  rw [(blockquote_per_line _ (by decide)).1]
  decide

/-- C7: K consecutive unordered-list lines produce K separate
`<ul><li>...</li></ul>` wrappers, one per line in source order, never a
shared `<ul>`. -/
theorem unordered_items_per_line (lines : List Line)
    (h : ∀ l ∈ lines, (matchUnordered l).isSome) :
    parse lines = lines.map ulBlockOf ∧
    render (processInline (parse lines)) =
      (lines.map (fun l =>
        "<ul><li>".data ++ replaceInline (ulContent l) ++ "</li></ul>".data)).flatten := by
  have hparse : parse lines = lines.map ulBlockOf := by
    induction lines with
    | nil => rfl
    | cons l rest ih =>
      rcases hu : matchUnordered l with _ | ⟨i, m, t⟩
      · exact absurd (h l (List.mem_cons_self l rest)) (by simp [hu])
      · rw [parse_cons, parseStep_of_unordered hu]
        rw [List.map_cons]
        show [Block.ul i (pyStrip t)] ++ parse rest = _
        rw [ih (fun x hx => h x (List.mem_cons_of_mem l hx))]
        simp [ulBlockOf, hu]
  refine ⟨hparse, ?_⟩
  rw [hparse]
  unfold processInline render
  rw [List.map_map, List.map_map]
  refine congrArg List.flatten (List.map_congr_left ?_)
  intro l hl
  rcases hu : matchUnordered l with _ | ⟨i, m, t⟩
  · exact absurd (h l hl) (by simp [hu])
  · simp [Function.comp, ulBlockOf, ulContent, hu, inlineBlock, renderBlock]

theorem unordered_items_per_line_witness :
    (∀ l ∈ ["- a".data, "* b".data, "+ c".data], (matchUnordered l).isSome) ∧
    render (processInline (parse ["- a".data, "* b".data, "+ c".data])) =
      "<ul><li>a</li></ul><ul><li>b</li></ul><ul><li>c</li></ul>".data := by
  refine ⟨by decide, ?_⟩
  rw [(unordered_items_per_line _ (by decide)).2]
  decide

theorem takeCodeLines_closed (body rest : List Line) (closeLine : Line)
    (hbody : ∀ l ∈ body, matchFenceEnd l = false)
    (hclose : matchFenceEnd closeLine = true) :
    takeCodeLines (body ++ closeLine :: rest) = (body, rest) := by
  induction body with
  | nil => simp [takeCodeLines, hclose]
  | cons l body2 ih =>
    rw [List.cons_append, takeCodeLines]
    rw [if_neg (by simp [hbody l (List.mem_cons_self l body2)])]
    rw [ih (fun x hx => hbody x (List.mem_cons_of_mem l hx))]

theorem takeCodeLines_open (body : List Line)
    (hbody : ∀ l ∈ body, matchFenceEnd l = false) :
    takeCodeLines body = (body, []) := by
  induction body with
  | nil => rfl
  | cons l body2 ih =>
    rw [takeCodeLines]
    rw [if_neg (by simp [hbody l (List.mem_cons_self l body2)])]
    rw [ih (fun x hx => hbody x (List.mem_cons_of_mem l hx))]

/-- C8: after an opening fence, every line is collected verbatim as code
content (never reclassified) until a closing fence, which is consumed and
excluded; with no closing fence, all remaining lines become the content
and parsing completes normally. -/
theorem fenced_code_verbatim (openLine lang closeLine : Line)
    (body rest : List Line)
    (hopen : matchFenceStart openLine = some lang)
    (hbody : ∀ l ∈ body, matchFenceEnd l = false)
    (hclose : matchFenceEnd closeLine = true) :
    parse (openLine :: (body ++ closeLine :: rest)) =
      Block.code_block lang (List.intercalate ['\n'] body) :: parse rest ∧
    parse (openLine :: body) =
      [Block.code_block lang (List.intercalate ['\n'] body)] := by
  constructor
  · rw [parse_cons, parseStep_of_fence hopen,
      takeCodeLines_closed body rest closeLine hbody hclose]
    rfl
  · rw [parse_cons, parseStep_of_fence hopen, takeCodeLines_open body hbody]
    rw [parse_nil]
    rfl

theorem fenced_code_verbatim_witness :
    (matchFenceStart "```py".data = some "py".data ∧
      (∀ l ∈ ["# x".data, "---".data], matchFenceEnd l = false) ∧
      matchFenceEnd "``` ".data = true) ∧
    parse ("```py".data :: (["# x".data, "---".data] ++ "``` ".data :: ["end".data])) =
      Block.code_block "py".data "# x\n---".data :: parse ["end".data] := by
  refine ⟨⟨by decide, by decide, by decide⟩, ?_⟩
  rw [(fenced_code_verbatim "```py".data "py".data "``` ".data
    ["# x".data, "---".data] ["end".data] (by decide) (by decide) (by decide)).1]
  decide

/-!  C9: the `number` parsed from an ordered-item marker has no influence
on the output. -/

theorem blockR_refl (b : Block) : blockR b b := Or.inl rfl

theorem forall2_blockR_refl (bs : List Block) : List.Forall₂ blockR bs bs := by
  induction bs with
  | nil => exact List.Forall₂.nil
  | cons b bs ih => exact List.Forall₂.cons (blockR_refl b) ih

/-- An ordered-item line matches none of the earlier block rules and is
not blank. -/
theorem ordered_not_special {l : Line} {x : Nat × Nat × Line}
    (h : matchOrdered l = some x) :
    matchHR l = false ∧ matchHeading l = none ∧ matchFenceStart l = none ∧
    matchBlockquote l = false ∧ matchUnordered l = none ∧ pyStrip l ≠ [] := by
  obtain ⟨c, t2, hd, hdig⟩ := matchOrdered_shape h
  have e1 : c ≠ '*' := by rintro rfl; exact absurd hdig (by decide)
  have e2 : c ≠ '-' := by rintro rfl; exact absurd hdig (by decide)
  have e3 : c ≠ '_' := by rintro rfl; exact absurd hdig (by decide)
  have e4 : c ≠ '#' := by rintro rfl; exact absurd hdig (by decide)
  have e5 : c ≠ btick := by rintro rfl; exact absurd hdig (by decide)
  have e6 : c ≠ '>' := by rintro rfl; exact absurd hdig (by decide)
  have e7 : c ≠ '+' := by rintro rfl; exact absurd hdig (by decide)
  exact ⟨matchHR_eq_false_of_head hd e1 e2 e3, matchHeading_eq_none_of_head hd e4,
    matchFenceStart_eq_none_of_head hd e5, matchBlockquote_eq_false_of_head hd e6,
    matchUnordered_eq_none_of_head hd e2 e1 e7, pyStrip_ne_nil_of_head hd⟩

theorem lineR_eq_of_not_ordered {l1 l2 : Line} (h : lineR l1 l2)
    (ho : matchOrdered l1 = none) : l1 = l2 := by
  rcases h with rfl | ⟨i, t, n1, n2, h1, _⟩
  · rfl
  · rw [h1] at ho
    exact absurd ho (by simp)

theorem lineR_blockquote {l1 l2 : Line} (h : lineR l1 l2) :
    matchBlockquote l1 = matchBlockquote l2 := by
  rcases h with rfl | ⟨i, t, n1, n2, h1, h2⟩
  · rfl
  · rw [(ordered_not_special h1).2.2.2.1, (ordered_not_special h2).2.2.2.1]

theorem lineR_special {l1 l2 : Line} (h : lineR l1 l2) :
    lineSpecial l1 = lineSpecial l2 := by
  rcases h with rfl | ⟨i, t, n1, n2, h1, h2⟩
  · rfl
  · simp [lineSpecial, h1, h2]

theorem lineR_blank {l1 l2 : Line} (h : lineR l1 l2) :
    (pyStrip l1 = []) ↔ (pyStrip l2 = []) := by
  rcases h with rfl | ⟨i, t, n1, n2, h1, h2⟩
  · exact Iff.rfl
  · exact ⟨fun hb => absurd hb (ordered_not_special h1).2.2.2.2.2,
      fun hb => absurd hb (ordered_not_special h2).2.2.2.2.2⟩

theorem lineSpecial_false_not_ordered {l : Line} (h : lineSpecial l = false) :
    matchOrdered l = none := by
  unfold lineSpecial at h
  rcases ho : matchOrdered l with _ | x
  · rfl
  · rw [ho] at h
    simp at h

theorem takeBlockquotes_cons_pos (line l2 : Line) (rest2 : List Line)
    (hb : matchBlockquote l2 = true) :
    takeBlockquotes line (l2 :: rest2) =
      (bqBlockOf line :: (takeBlockquotes l2 rest2).1, (takeBlockquotes l2 rest2).2) := by
  simp only [takeBlockquotes, hb, if_true]
  rfl

theorem takeBlockquotes_cons_neg (line l2 : Line) (rest2 : List Line)
    (hb : matchBlockquote l2 = false) :
    takeBlockquotes line (l2 :: rest2) = ([bqBlockOf line], l2 :: rest2) := by
  simp only [takeBlockquotes, hb]
  rfl

theorem takeBlockquotes_sublist (line : Line) (rest : List Line) :
    (takeBlockquotes line rest).2.Sublist rest := by
  induction rest generalizing line with
  | nil => simp [takeBlockquotes]
  | cons l2 rest2 ih =>
    by_cases hb : matchBlockquote l2 = true
    · rw [takeBlockquotes_cons_pos line l2 rest2 hb]
      exact (ih l2).trans (List.sublist_cons_self l2 rest2)
    · rw [takeBlockquotes_cons_neg line l2 rest2 (Bool.eq_false_iff.mpr hb)]

theorem takeBlockquotes_forall2 (l : Line) {r1 r2 : List Line}
    (h : List.Forall₂ lineR r1 r2) :
    (takeBlockquotes l r1).1 = (takeBlockquotes l r2).1 ∧
      List.Forall₂ lineR (takeBlockquotes l r1).2 (takeBlockquotes l r2).2 := by
  induction h generalizing l with
  | nil => exact ⟨rfl, List.Forall₂.nil⟩
  | @cons x1 x2 xs1 xs2 hx hxs ih =>
    by_cases hb : matchBlockquote x1 = true
    · have hx12 : x1 = x2 := by
        rcases hx with rfl | ⟨i, t, n1, n2, h1, h2⟩
        · rfl
        · rw [(ordered_not_special h1).2.2.2.1] at hb
          exact absurd hb (by simp)
      subst hx12
      rw [takeBlockquotes_cons_pos l x1 xs1 hb, takeBlockquotes_cons_pos l x1 xs2 hb]
      obtain ⟨ih1, ih2⟩ := ih x1
      exact ⟨by rw [ih1], ih2⟩
    · have hb1 : matchBlockquote x1 = false := Bool.eq_false_iff.mpr hb
      have hb2 : matchBlockquote x2 = false := by rw [← lineR_blockquote hx]; exact hb1
      rw [takeBlockquotes_cons_neg l x1 xs1 hb1, takeBlockquotes_cons_neg l x2 xs2 hb2]
      exact ⟨rfl, List.Forall₂.cons hx hxs⟩

theorem takePara_cons_stop (l : Line) (rest : List Line)
    (h : (pyStrip l).isEmpty = true ∨ lineSpecial l = true) :
    takePara (l :: rest) = ([], l :: rest) := by
  rcases h with h | h
  · simp only [takePara, h, if_true]
  · by_cases hb : (pyStrip l).isEmpty = true
    · simp only [takePara, hb, if_true]
    · simp only [takePara, Bool.eq_false_iff.mpr hb, h]
      rfl

theorem takePara_cons_collect (l : Line) (rest : List Line)
    (h1 : (pyStrip l).isEmpty = false) (h2 : lineSpecial l = false) :
    takePara (l :: rest) = (pyStrip l :: (takePara rest).1, (takePara rest).2) := by
  simp only [takePara, h1, h2]
  rfl

theorem takePara_sublist (rest : List Line) :
    (takePara rest).2.Sublist rest := by
  induction rest with
  | nil => simp [takePara]
  | cons l rest2 ih =>
    by_cases hb : (pyStrip l).isEmpty = true
    · rw [takePara_cons_stop l rest2 (Or.inl hb)]
    · by_cases hsp : lineSpecial l = true
      · rw [takePara_cons_stop l rest2 (Or.inr hsp)]
      · rw [takePara_cons_collect l rest2 (Bool.eq_false_iff.mpr hb)
          (Bool.eq_false_iff.mpr hsp)]
        exact ih.trans (List.sublist_cons_self l rest2)

theorem takePara_forall2 {r1 r2 : List Line} (h : List.Forall₂ lineR r1 r2) :
    (takePara r1).1 = (takePara r2).1 ∧
      List.Forall₂ lineR (takePara r1).2 (takePara r2).2 := by
  induction h with
  | nil => exact ⟨rfl, List.Forall₂.nil⟩
  | @cons x1 x2 xs1 xs2 hx hxs ih =>
    by_cases hb : (pyStrip x1).isEmpty = true
    · have hb2 : (pyStrip x2).isEmpty = true := by
        rw [List.isEmpty_iff] at hb ⊢
        exact (lineR_blank hx).mp hb
      rw [takePara_cons_stop x1 xs1 (Or.inl hb), takePara_cons_stop x2 xs2 (Or.inl hb2)]
      exact ⟨rfl, List.Forall₂.cons hx hxs⟩
    · have hb1 : (pyStrip x1).isEmpty = false := Bool.eq_false_iff.mpr hb
      have hb2 : (pyStrip x2).isEmpty = false := by
        rw [List.isEmpty_eq_false] at hb1 ⊢
        intro hc
        exact hb1 ((lineR_blank hx).mpr hc)
      by_cases hsp : lineSpecial x1 = true
      · have hsp2 : lineSpecial x2 = true := by rw [← lineR_special hx]; exact hsp
        rw [takePara_cons_stop x1 xs1 (Or.inr hsp), takePara_cons_stop x2 xs2 (Or.inr hsp2)]
        exact ⟨rfl, List.Forall₂.cons hx hxs⟩
      · have hsp1 : lineSpecial x1 = false := Bool.eq_false_iff.mpr hsp
        have hx12 : x1 = x2 :=
          lineR_eq_of_not_ordered hx (lineSpecial_false_not_ordered hsp1)
        subst hx12
        rw [takePara_cons_collect x1 xs1 hb1 hsp1, takePara_cons_collect x1 xs2 hb1 hsp1]
        exact ⟨by rw [ih.1], ih.2⟩

/-- The block parser maps number-renamed inputs to number-renamed block lists
(on fence-free input, where every related line really is an item line). -/
theorem parse_forall2 (m : Nat) :
    ∀ {ls1 ls2 : List Line}, ls1.length ≤ m →
      List.Forall₂ lineR ls1 ls2 → (∀ l ∈ ls1, matchFenceStart l = none) →
      List.Forall₂ blockR (parse ls1) (parse ls2) := by
  induction m with
  | zero =>
    intro ls1 ls2 hlen h _
    have h1 : ls1 = [] := List.length_eq_zero.mp (Nat.le_zero.mp hlen)
    subst h1
    cases h
    exact List.Forall₂.nil
  | succ m ih =>
    intro ls1 ls2 hlen h hf
    cases h with
    | nil => exact List.Forall₂.nil
    | @cons l1 l2 r1 r2 hl ht =>
      have hlen1 : r1.length ≤ m := by simpa using hlen
      have hf1 : ∀ l ∈ r1, matchFenceStart l = none :=
        fun l hl0 => hf l (List.mem_cons_of_mem l1 hl0)
      rcases ho1 : matchOrdered l1 with _ | ⟨i, n1, t⟩
      · -- `l1` is not an ordered item, hence `l2 = l1`
        have heq : l1 = l2 := lineR_eq_of_not_ordered hl ho1
        subst heq
        by_cases hhr : matchHR l1 = true
        · rw [parse_cons, parse_cons, @parseStep_hr l1 r1 hhr, @parseStep_hr l1 r2 hhr]
          exact List.Forall₂.cons (blockR_refl _) (ih hlen1 ht hf1)
        · have hhr1 : matchHR l1 = false := Bool.eq_false_iff.mpr hhr
          rcases hh : matchHeading l1 with _ | ⟨lv, g2⟩
          · have hfl : matchFenceStart l1 = none := hf l1 (List.mem_cons_self l1 r1)
            by_cases hbq : matchBlockquote l1 = true
            · rw [parse_cons, parse_cons, @parseStep_of_blockquote l1 r1 hbq,
                @parseStep_of_blockquote l1 r2 hbq]
              obtain ⟨e1, e2⟩ := takeBlockquotes_forall2 l1 ht
              rw [e1]
              refine List.rel_append (forall2_blockR_refl _) (ih ?_ e2 ?_)
              · exact Nat.le_trans (takeBlockquotes_length_le l1 r1) hlen1
              · intro l hl0
                exact hf1 l ((takeBlockquotes_sublist l1 r1).subset hl0)
            · have hbq1 : matchBlockquote l1 = false := Bool.eq_false_iff.mpr hbq
              rcases hu : matchUnordered l1 with _ | ⟨i, mk, t⟩
              · by_cases hb : pyStrip l1 = []
                · rw [parse_cons, parse_cons,
                    @parseStep_blank l1 r1 hhr1 hh hfl hbq1 hu ho1 hb,
                    @parseStep_blank l1 r2 hhr1 hh hfl hbq1 hu ho1 hb]
                  exact ih hlen1 ht hf1
                · rw [parse_cons, parse_cons,
                    @parseStep_para l1 r1 hhr1 hh hfl hbq1 hu ho1 hb,
                    @parseStep_para l1 r2 hhr1 hh hfl hbq1 hu ho1 hb]
                  obtain ⟨e1, e2⟩ := takePara_forall2 ht
                  rw [e1]
                  refine List.Forall₂.cons (blockR_refl _) (ih ?_ e2 ?_)
                  · exact Nat.le_trans (takePara_length_le r1) hlen1
                  · intro l hl0
                    exact hf1 l ((takePara_sublist r1).subset hl0)
              · rw [parse_cons, parse_cons, @parseStep_of_unordered l1 r1 i mk t hu,
                  @parseStep_of_unordered l1 r2 i mk t hu]
                exact List.Forall₂.cons (blockR_refl _) (ih hlen1 ht hf1)
          · rw [parse_cons, parse_cons, @parseStep_heading l1 r1 lv g2 hhr1 hh,
              @parseStep_heading l1 r2 lv g2 hhr1 hh]
            exact List.Forall₂.cons (blockR_refl _) (ih hlen1 ht hf1)
      · -- `l1` is an ordered item
        rcases hl with heq | ⟨i', t', n1', n2', h1', h2'⟩
        · subst heq
          rw [parse_cons, parse_cons, @parseStep_of_ordered l1 r1 i n1 t ho1,
            @parseStep_of_ordered l1 r2 i n1 t ho1]
          exact List.Forall₂.cons (blockR_refl _) (ih hlen1 ht hf1)
        · rw [parse_cons, parse_cons, @parseStep_of_ordered l1 r1 i' n1' t' h1',
            @parseStep_of_ordered l2 r2 i' n2' t' h2']
          exact List.Forall₂.cons
            (Or.inr ⟨i', n1', n2', pyStrip t', rfl, rfl⟩) (ih hlen1 ht hf1)

/-- The rendered output of number-related block lists is identical:
`renderBlock` never reads the `number` field. -/
theorem render_forall2 {bs1 bs2 : List Block} (h : List.Forall₂ blockR bs1 bs2) :
    render (processInline bs1) = render (processInline bs2) := by
  induction h with
  | nil => rfl
  | @cons b1 b2 t1 t2 hb ht ih =>
    have hbb : renderBlock (inlineBlock b1) = renderBlock (inlineBlock b2) := by
      rcases hb with rfl | ⟨i, n1, n2, c, rfl, rfl⟩
      · rfl
      · rfl
    show renderBlock (inlineBlock b1) ++ render (processInline t1) = _
    rw [hbb, ih]
    rfl

/-- C9: an `OrderedItem` renders as `<ol><li>{content}</li></ol>` and the
parsed number has no influence: two fence-free inputs identical except
for the digit runs of their ordered-item markers render identically. -/
theorem ordered_number_not_used :
    (∀ (i n : Nat) (c : Line), renderBlock (Block.ol i n c) =
      "<ol><li>".data ++ c ++ "</li></ol>".data) ∧
    (∀ ls1 ls2 : List Line, List.Forall₂ lineR ls1 ls2 →
      (∀ l ∈ ls1, matchFenceStart l = none) →
      render (processInline (parse ls1)) = render (processInline (parse ls2))) :=
  ⟨fun _ _ _ => rfl,
    fun ls1 _ hR hf => render_forall2 (parse_forall2 ls1.length (Nat.le_refl _) hR hf)⟩

theorem ordered_number_not_used_witness :
    render (processInline (parse ["1. a".data, "x".data, "23. b".data])) =
      render (processInline (parse ["7. a".data, "x".data, "1. b".data])) :=
  ordered_number_not_used.2 _ _
    (List.Forall₂.cons (Or.inr ⟨0, "a".data, 1, 7, by decide, by decide⟩)
      (List.Forall₂.cons (Or.inl rfl)
        (List.Forall₂.cons (Or.inr ⟨0, "b".data, 23, 1, by decide, by decide⟩)
          List.Forall₂.nil)))
    (by decide)

